import Mathlib

/-!
Shallow embedding of `src/lib.rs` of the `bernoulli_numbers` crate.

The crate exposes two infinite iterators:

* `EulerUpDown<T>` — the Euler up/down ("zigzag") numbers (OEIS A000111),
  generated by Seidel's boustrophedon recurrence over two `Vec<T>` buffers
  `source` and `sink`;
* `EvenBernoulli` — the even-index Bernoulli numbers as exact rationals
  (`Mpq`), built from an `i64` index counter `i`, an `Mpz` power-of-four
  accumulator `power`, and an owned `EulerUpDown<Mpz>`.

Modelling decisions:

* `Mpz` (arbitrary-precision integer) is `Int`; `Mpq` (arbitrary-precision
  rational) is `Rat`.  Both are exact in the source, so no modular reduction
  is involved.
* The only fixed-width machine integer in the source is the `i64` field
  `EvenBernoulli.i`; its values follow the pattern 0, -2, 4, -6, … (±2·n
  after n calls), which stays far inside the `i64` range for any feasible
  number of calls, so it is modelled as `Int`.
* A `Vec<T>` used as a stack (`push` / `pop` at the end) is modelled as a
  `List Int` in stack order: the head of the list is the most recently
  pushed element, `push x` is `x :: ·`, and `pop` inspects the head.
* Rust's `Iterator::next` returns `Option<Item>`; `EulerUpDown::next`
  unconditionally ends in `Some(item)`, so the state transition is the total
  function `EulerUpDown.next` and the iterator interface is
  `EulerUpDown.nextOpt := some ∘ next`.  `EvenBernoulli::next` contains a
  genuine `None => return None` arm (propagating exhaustion of the zigzag
  source through `nth(1)`), so it is embedded as an `Option`-valued
  function.
-/

namespace BernoulliNumbers

/-- State of `EulerUpDown<Mpz>`: the two row buffers (`Vec<T>` in the
source), in stack order (list head = end of the `Vec`). -/
structure EulerUpDown where
  source : List Int
  sink : List Int
  deriving DecidableEq, Repr

/-- `impl Default for EulerUpDown`: both buffers empty. -/
def EulerUpDown.default : EulerUpDown := ⟨[], []⟩

/-- The `while let Some(i) = self.source.pop()` loop of
`EulerUpDown::next` (lib.rs lines 104-107): drain `src`, adding each popped
element into `accum` and pushing each intermediate `accum` onto `sink`.
Returns the final accumulator together with the extended sink. -/
def drainLoop : List Int → Int → List Int → Int × List Int
  | [], accum, sink => (accum, sink)
  | i :: src, accum, sink => drainLoop src (accum + i) ((accum + i) :: sink)

/-- `EulerUpDown::next` (lib.rs lines 94-110) as a total state transition,
returning the emitted item and the new state.

After `mem::swap`, the row to read is the old `sink` and the row being
built starts as the old `source`.  Popping the swapped source either hits
the seed case (`None => One::one()`, nothing pushed) or pushes a clone of
the popped head; the popped/seed value is the emitted item; the while loop
(`drainLoop`) drains the rest; finally the accumulator is pushed once more.
In both branches the new `source` is fully drained, hence `[]`. -/
def EulerUpDown.next (s : EulerUpDown) : Int × EulerUpDown :=
  match s.sink with
  | [] => (1, ⟨[], 1 :: s.source⟩)
  | accum :: src =>
      let r := drainLoop src accum (accum :: s.source)
      (accum, ⟨[], r.1 :: r.2⟩)

/-- The `Option`-valued iterator interface: the Rust function body ends in
`Some(item)` unconditionally. -/
def EulerUpDown.nextOpt (s : EulerUpDown) : Option (Int × EulerUpDown) :=
  some s.next

/-- `Iterator::nth(1)` as used at lib.rs line 56: call `next` twice,
propagating `None`, and return the second item. -/
def EulerUpDown.nth1 (s : EulerUpDown) : Option (Int × EulerUpDown) :=
  match s.nextOpt with
  | none => none
  | some (_, s1) => s1.nextOpt

/-- `.take(n).collect::<Vec<_>>()` on the zigzag iterator. -/
def EulerUpDown.take (n : Nat) (s : EulerUpDown) : List Int :=
  match n with
  | 0 => []
  | n + 1 =>
      match s.nextOpt with
      | none => []
      | some (x, s1) => x :: s1.take n

/-- State of the zigzag iterator after `n` calls to `next`, starting from
the default (empty) state. -/
def zigzagState : Nat → EulerUpDown
  | 0 => EulerUpDown.default
  | n + 1 => ((zigzagState n).next).2

/-- The `n`-th (0-indexed) zigzag number produced by the iterator: the item
emitted by the call made from `zigzagState n`. -/
def zigzagTerm (n : Nat) : Int := ((zigzagState n).next).1

/-- State of `EvenBernoulli` (lib.rs lines 32-36): index counter `i`
(`i64`), accumulator `power` (`Mpz`), owned zigzag iterator `zs`. -/
structure EvenBernoulli where
  i : Int
  power : Int
  zs : EulerUpDown
  deriving DecidableEq, Repr

/-- `impl Default for EvenBernoulli`: `i = 0`, `power = 1`, `zs` empty. -/
def EvenBernoulli.default : EvenBernoulli := ⟨0, 1, EulerUpDown.default⟩

/-- `EvenBernoulli::next` (lib.rs lines 50-66).  Reads `i`, stores
`-(i + if i >= 0 { 2 } else { -2 })` back, then either emits `1` (the
`i == 0` branch) or consumes two zigzag terms via `nth(1)` (propagating
`None`), multiplies `power` by 4, and emits `(i·z) / (a − b)` with
`a = power` (post-multiplication) and `b = a²`. -/
def EvenBernoulli.next (s : EvenBernoulli) : Option (Rat × EvenBernoulli) :=
  let i := s.i
  let iNext := -(i + if 0 ≤ i then 2 else -2)
  if i = 0 then
    some (1, ⟨iNext, s.power, s.zs⟩)
  else
    match s.zs.nth1 with
    | none => none
    | some (z, zs1) =>
      let power := s.power * 4
      let a := power
      let b := a ^ 2
      some ((((i * z : Int) : Rat) / ((a - b : Int) : Rat)), ⟨iNext, power, zs1⟩)

/-- The state transition of `EvenBernoulli::next`, as a total function:
the `None` arm of `next` is never taken because `EulerUpDown.nextOpt` is
always `some` (see `EvenBernoulli.next_eq`). -/
def EvenBernoulli.step (s : EvenBernoulli) : EvenBernoulli :=
  let iNext := -(s.i + if 0 ≤ s.i then 2 else -2)
  if s.i = 0 then ⟨iNext, s.power, s.zs⟩
  else ⟨iNext, s.power * 4, (((s.zs.next).2.next)).2⟩

/-- The item emitted by `EvenBernoulli::next`, as a total function. -/
def EvenBernoulli.out (s : EvenBernoulli) : Rat :=
  if s.i = 0 then 1
  else
    let z := (((s.zs.next).2.next)).1
    let a := s.power * 4
    let b := a ^ 2
    ((s.i * z : Int) : Rat) / ((a - b : Int) : Rat)

/-- `.take(n).collect::<Vec<_>>()` on the Bernoulli iterator. -/
def EvenBernoulli.take (n : Nat) (s : EvenBernoulli) : List Rat :=
  match n with
  | 0 => []
  | n + 1 =>
      match s.next with
      | none => []
      | some (x, s1) => x :: s1.take n

/-- State of the Bernoulli iterator after `n` calls to `next`, starting
from the default state. -/
def bernState : Nat → EvenBernoulli
  | 0 => EvenBernoulli.default
  | n + 1 => (bernState n).step

/-- The `n`-th (0-indexed) term produced by `EvenBernoulli`, i.e. the
Bernoulli number `B_{2n}`. -/
def bernTerm (n : Nat) : Rat := (bernState n).out

/-- `EvenBernoulli.next` never returns `none`: it always emits
`(s.out, s.step)`. -/
theorem EvenBernoulli.next_eq (s : EvenBernoulli) :
    s.next = some (s.out, s.step) := by
  by_cases h : s.i = 0 <;>
    simp [EvenBernoulli.next, EvenBernoulli.out, EvenBernoulli.step,
      EulerUpDown.nth1, EulerUpDown.nextOpt, h]

/-- The while loop appends exactly one sink entry per drained source
entry. -/
theorem drainLoop_sink_length (src : List Int) (accum : Int) (sink : List Int) :
    ((drainLoop src accum sink).2).length = src.length + sink.length := by
  induction src generalizing accum sink with
  | nil => simp [drainLoop]
  | cons i rest ih =>
      simp only [drainLoop, ih, List.length_cons]
      omega

/-- If the source elements, the accumulator and the sink elements are all
at least 1, the while loop keeps them so. -/
theorem drainLoop_pos (src : List Int) (accum : Int) (sink : List Int)
    (hs : ∀ x ∈ src, 1 ≤ x) (ha : 1 ≤ accum) (hk : ∀ x ∈ sink, 1 ≤ x) :
    1 ≤ (drainLoop src accum sink).1 ∧
      ∀ x ∈ (drainLoop src accum sink).2, 1 ≤ x := by
  induction src generalizing accum sink with
  | nil => exact ⟨ha, hk⟩
  | cons i rest ih =>
      have hi : 1 ≤ i := hs i (by simp)
      refine ih (accum + i) ((accum + i) :: sink) (fun x hx => hs x (by simp [hx]))
        (by omega) ?_
      intro x hx
      rcases List.mem_cons.mp hx with h | h
      · omega
      · exact hk x h

/-- Every call to `EulerUpDown::next` fully drains the (swapped-in)
source, so the stored source buffer is empty afterwards. -/
theorem EulerUpDown.next_source_empty (s : EulerUpDown) :
    ((s.next).2).source = [] := by
  unfold EulerUpDown.next
  cases s.sink <;> rfl

/-- Each call to `EulerUpDown::next` grows the total buffered row by
exactly one element. -/
theorem EulerUpDown.next_sink_length (s : EulerUpDown) :
    (((s.next).2).sink).length = s.sink.length + s.source.length + 1 := by
  unfold EulerUpDown.next
  cases s.sink with
  | nil => simp
  | cons accum src =>
      simp only [drainLoop_sink_length, List.length_cons]
      omega

/-- Positivity invariant on a zigzag state: every buffered element is at
least 1. -/
def EulerUpDown.Pos (s : EulerUpDown) : Prop :=
  (∀ x ∈ s.source, 1 ≤ x) ∧ (∀ x ∈ s.sink, 1 ≤ x)

/-- `EulerUpDown::next` preserves the positivity invariant and emits an
item that is at least 1. -/
theorem EulerUpDown.next_pos (s : EulerUpDown) (h : s.Pos) :
    1 ≤ (s.next).1 ∧ ((s.next).2).Pos := by
  obtain ⟨hsrc, hsink⟩ := h
  unfold EulerUpDown.next
  cases hs : s.sink with
  | nil =>
      refine ⟨le_refl 1, by simp [EulerUpDown.Pos], ?_⟩
      intro x hx
      rcases List.mem_cons.mp hx with h | h
      · omega
      · exact hsrc x h
  | cons accum src =>
      have haccum : 1 ≤ accum := hsink accum (by simp [hs])
      have hrest : ∀ x ∈ src, 1 ≤ x := fun x hx => hsink x (by simp [hs, hx])
      have hinit : ∀ x ∈ accum :: s.source, 1 ≤ x := by
        intro x hx
        rcases List.mem_cons.mp hx with h | h
        · omega
        · exact hsrc x h
      obtain ⟨h1, h2⟩ := drainLoop_pos src accum (accum :: s.source) hrest haccum hinit
      refine ⟨haccum, by simp [EulerUpDown.Pos], ?_⟩
      intro x hx
      rcases List.mem_cons.mp hx with h | h
      · omega
      · exact h2 x h

/-- Every reachable zigzag state satisfies the positivity invariant. -/
theorem zigzagState_pos (n : Nat) : (zigzagState n).Pos := by
  induction n with
  | zero => exact ⟨by simp [zigzagState, EulerUpDown.default], by simp [zigzagState, EulerUpDown.default]⟩
  | succ n ih => exact ((zigzagState n).next_pos ih).2

/-- Every produced zigzag term is at least 1. -/
theorem zigzagTerm_pos (n : Nat) : 1 ≤ zigzagTerm n :=
  ((zigzagState n).next_pos (zigzagState_pos n)).1

/-- After `n + 1` calls the zigzag source buffer is empty and the sink
buffer holds exactly `n + 1` elements. -/
theorem zigzagState_shape (n : Nat) :
    (zigzagState (n + 1)).source = [] ∧
      ((zigzagState (n + 1)).sink).length = n + 1 := by
  induction n with
  | zero => exact ⟨rfl, rfl⟩
  | succ n ih =>
      obtain ⟨h1, h2⟩ := ih
      refine ⟨(zigzagState (n + 1)).next_source_empty, ?_⟩
      rw [show zigzagState (n + 1 + 1) = ((zigzagState (n + 1)).next).2 from rfl,
        (zigzagState (n + 1)).next_sink_length, h1, h2]
      simp

/-- Closed form of the Bernoulli iterator state after `n + 1` calls:
index `(-1)^(n+1) · (2n + 2)`, power `4^n`, and a zigzag iterator that has
been advanced exactly `2n` times. -/
theorem bernState_closed (n : Nat) :
    bernState (n + 1) =
      ⟨(-1) ^ (n + 1) * (2 * (n : Int) + 2), 4 ^ n, zigzagState (2 * n)⟩ := by
  induction n with
  | zero => decide
  | succ n ih =>
      have hz : zigzagState (2 * (n + 1)) = (((zigzagState (2 * n)).next).2.next).2 := by
        rw [show 2 * (n + 1) = 2 * n + 1 + 1 by ring]
        rfl
      have hstep : bernState (n + 1 + 1) = (bernState (n + 1)).step := rfl
      rw [hstep, ih]
      rcases Nat.even_or_odd n with he | ho
      · have h1 : ((-1 : Int)) ^ (n + 1) = -1 := (Even.add_one he).neg_one_pow
        have h2 : ((-1 : Int)) ^ (n + 1 + 1) = 1 := by
          rw [pow_succ, h1]
          norm_num
        simp only [EvenBernoulli.step, h1, h2, hz]
        rw [if_neg (by omega), if_neg (by omega)]
        congr 1
      · have h1 : ((-1 : Int)) ^ (n + 1) = 1 := (Odd.add_one ho).neg_one_pow
        have h2 : ((-1 : Int)) ^ (n + 1 + 1) = -1 := by
          rw [pow_succ, h1]
          norm_num
        simp only [EvenBernoulli.step, h1, h2, hz]
        rw [if_neg (by omega), if_pos (by omega)]
        congr 1

/-- Index field after `n` calls: `(-1)^n · 2n`. -/
theorem bernState_i (n : Nat) : (bernState n).i = (-1) ^ n * (2 * (n : Int)) := by
  cases n with
  | zero => rfl
  | succ n =>
      rw [bernState_closed]
      push_cast
      ring

/-- Power field after `n + 1` calls: `4^n`. -/
theorem bernState_power (n : Nat) : (bernState (n + 1)).power = 4 ^ n := by
  rw [bernState_closed]

/-- Zigzag component after `n + 1` calls: advanced exactly `2n` times. -/
theorem bernState_zs (n : Nat) : (bernState (n + 1)).zs = zigzagState (2 * n) := by
  rw [bernState_closed]

/-- Closed form of the `(n + 1)`-th produced Bernoulli term (`B_{2n+2}`):
`((-1)^(n+1) · (2n+2) · zigzagTerm (2n+1)) / (4^(n+1) − 4^(2n+2))`. -/
theorem bernTerm_closed (n : Nat) :
    bernTerm (n + 1) =
      (((-1) ^ (n + 1) * (2 * (n : Int) + 2) * zigzagTerm (2 * n + 1) : Int) : Rat) /
        ((4 ^ (n + 1) - 4 ^ (2 * n + 2) : Int) : Rat) := by
  have hterm : zigzagTerm (2 * n + 1) = (((zigzagState (2 * n)).next).2.next).1 := rfl
  have hne : ((-1 : Int)) ^ (n + 1) * (2 * (n : Int) + 2) ≠ 0 := by
    rcases Nat.even_or_odd (n + 1) with he | ho
    · rw [he.neg_one_pow]
      omega
    · rw [ho.neg_one_pow]
      omega
  unfold bernTerm
  rw [bernState_closed]
  simp only [EvenBernoulli.out, hterm]
  rw [if_neg hne]
  congr 1
  push_cast
  ring

/-- C1: the first 8 terms produced by `EvenBernoulli` from its default
state are exactly `[1, 1/6, -1/30, 1/42, -1/30, 5/66, -691/2730, 7/6]` as
exact rationals; in particular the first call emits the rational 1. -/
theorem evenBernoulli_first_eight :
    EvenBernoulli.take 8 EvenBernoulli.default =
      [1, 1/6, -1/30, 1/42, -1/30, 5/66, -691/2730, 7/6] ∧ bernTerm 0 = 1 := by
  constructor
  · norm_num [EvenBernoulli.take, EvenBernoulli.next, EulerUpDown.nth1,
      EulerUpDown.nextOpt, EulerUpDown.next, drainLoop,
      EvenBernoulli.default, EulerUpDown.default]
  · rfl

/-- C2: the first 10 terms produced by `EulerUpDown` from its default
state are exactly `[1, 1, 1, 2, 5, 16, 61, 272, 1385, 7936]`, and every
term the iterator ever produces is a non-negative integer. -/
theorem eulerUpDown_first_ten :
    EulerUpDown.take 10 EulerUpDown.default =
      [1, 1, 1, 2, 5, 16, 61, 272, 1385, 7936] ∧
      ∀ n : Nat, 0 ≤ zigzagTerm n :=
  ⟨by decide, fun n => le_trans (by norm_num) (zigzagTerm_pos n)⟩

/-- C3: in every call to `EvenBernoulli::next` reachable from the default
state in which the stored index `i` is non-zero, the denominator `a − b`
(with `a` the post-multiplication power accumulator `power * 4` and
`b = a²`) is non-zero, so the rational division is never division by
zero. -/
theorem evenBernoulli_denominator_ne_zero (n : Nat)
    (h : (bernState n).i ≠ 0) :
    (bernState n).power * 4 - ((bernState n).power * 4) ^ 2 ≠ 0 := by
  cases n with
  | zero => exact absurd rfl h
  | succ n =>
      rw [bernState_power]
      have hpow : (4 : Int) ^ n * 4 = 4 ^ (n + 1) := by ring
      rw [hpow]
      have h4 : (4 : Int) ≤ 4 ^ (n + 1) := by
        calc (4 : Int) = 4 ^ 1 := (pow_one 4).symm
        _ ≤ 4 ^ (n + 1) := pow_le_pow_right₀ (by norm_num) (by omega)
      have hmul : (4 : Int) ^ (n + 1) * 4 ≤ 4 ^ (n + 1) * 4 ^ (n + 1) :=
        mul_le_mul_of_nonneg_left h4 (by positivity)
      have hsq : ((4 : Int) ^ (n + 1)) ^ 2 = 4 ^ (n + 1) * 4 ^ (n + 1) := sq _
      intro hzero
      nlinarith

/-- Witness for C3 at `n = 1`. -/
theorem evenBernoulli_denominator_ne_zero_witness :
    (bernState 1).i ≠ 0 ∧
      (bernState 1).power * 4 - ((bernState 1).power * 4) ^ 2 ≠ 0 :=
  ⟨by decide, evenBernoulli_denominator_ne_zero 1 (by decide)⟩

/-- C4: the first call to `EvenBernoulli::next` does not advance the
owned zigzag iterator at all, and for every `n ≥ 1` the call producing
the `n`-th non-initial term (`B_{2n}`) advances it by exactly two terms,
from overall zigzag position `2n − 2` to `2n`, discarding the term at
index `2n − 2` and using the one at index `2n − 1` as the value `z` in
the emitted rational. -/
theorem evenBernoulli_zigzag_pair_consumption :
    (bernState 1).zs = EulerUpDown.default ∧
      ∀ n : Nat, 1 ≤ n →
        (bernState n).zs = zigzagState (2 * n - 2) ∧
        (bernState (n + 1)).zs = zigzagState (2 * n) ∧
        bernTerm n =
          (((bernState n).i * zigzagTerm (2 * n - 1) : Int) : Rat) /
            (((bernState n).power * 4 - ((bernState n).power * 4) ^ 2 : Int) : Rat) := by
  refine ⟨rfl, ?_⟩
  intro n hn
  obtain ⟨m, rfl⟩ : ∃ m, n = m + 1 := ⟨n - 1, by omega⟩
  refine ⟨?_, ?_, ?_⟩
  · rw [bernState_zs]
    congr 1
  · exact bernState_zs (m + 1)
  · have hidx : 2 * (m + 1) - 1 = 2 * m + 1 := by omega
    have hi : (bernState (m + 1)).i = (-1) ^ (m + 1) * (2 * (m : Int) + 2) := by
      rw [bernState_closed]
    have hp : (bernState (m + 1)).power = 4 ^ m := bernState_power m
    have hden : ((4 : Int) ^ (m + 1) - 4 ^ (2 * m + 2)) =
        4 ^ m * 4 - (4 ^ m * 4) ^ 2 := by ring
    rw [bernTerm_closed m, hidx, hi, hp, hden]

/-- Witness for C4 at `n = 1`. -/
theorem evenBernoulli_zigzag_pair_consumption_witness :
    (1 : Nat) ≤ 1 ∧
      ((bernState 1).zs = zigzagState (2 * 1 - 2) ∧
        (bernState (1 + 1)).zs = zigzagState (2 * 1) ∧
        bernTerm 1 =
          (((bernState 1).i * zigzagTerm (2 * 1 - 1) : Int) : Rat) /
            (((bernState 1).power * 4 - ((bernState 1).power * 4) ^ 2 : Int) : Rat)) :=
  ⟨le_refl 1, evenBernoulli_zigzag_pair_consumption.2 1 (le_refl 1)⟩

/-- C5 counterexample: after 1 call to `EvenBernoulli::next` the power
field is still 1 (the first call takes the `i == 0` branch and never
multiplies), not `4^1 = 4` as the claim states. -/
theorem power_after_first_call_ne_four :
    (bernState 1).power ≠ 4 ^ 1 := by decide

/-- C5 (amended): after 0 calls the power field is 1, and after `n + 1`
calls it is `4^n` (the multiplication by 4 happens once per call except
the very first). -/
theorem power_closed_form :
    (bernState 0).power = 1 ∧ ∀ n : Nat, (bernState (n + 1)).power = 4 ^ n :=
  ⟨rfl, bernState_power⟩

/-- C6: the index field `i` observed at the start of the `(n+1)`-th call
is `(−1)^n · 2n` (the pattern 0, −2, 4, −6, 8, …), it is 0 exactly on the
very first call, and each call updates it by `i ← −(i + 2)` if `i ≥ 0`
and `i ← −(i − 2)` otherwise. -/
theorem evenBernoulli_index_pattern :
    (∀ s : EvenBernoulli, (s.step).i = if 0 ≤ s.i then -(s.i + 2) else -(s.i - 2)) ∧
      ∀ n : Nat, (bernState n).i = (-1) ^ n * (2 * (n : Int)) ∧
        ((bernState n).i = 0 ↔ n = 0) := by
  constructor
  · intro s
    simp only [EvenBernoulli.step, apply_ite EvenBernoulli.i]
    by_cases h1 : 0 ≤ s.i <;> simp [h1, sub_eq_add_neg]
  · intro n
    refine ⟨bernState_i n, ?_⟩
    rw [bernState_i n]
    constructor
    · intro h
      rcases mul_eq_zero.mp h with h | h
      · exact absurd h (pow_ne_zero n (by norm_num))
      · omega
    · rintro rfl
      simp

/-- C7 counterexample: after the very first call to `EulerUpDown::next`
the sink buffer is `[1]` (one entry), not `[1, 1]`: the seeded value is
not pushed before the loop and the loop body never runs. -/
theorem first_zigzag_call_sink_ne_two_entries :
    ((EulerUpDown.default.next).2).sink ≠ [1, 1] := by decide

/-- C7 (amended): the very first call to `EulerUpDown::next` on the
default state returns the integer 1 and leaves the sink buffer equal to
`[1]` (one entry) with the source buffer empty. -/
theorem first_zigzag_call_result :
    (EulerUpDown.default.next).1 = 1 ∧
      ((EulerUpDown.default.next).2).source = [] ∧
      ((EulerUpDown.default.next).2).sink = [1] := by decide

/-- C8: neither producer ever signals exhaustion: `EulerUpDown::next`
returns `Some` on every state, and `EvenBernoulli::next` returns `Some`
on every state as well — the branch propagating `None` from the zigzag
source is unreachable. -/
theorem producers_never_exhaust :
    (∀ s : EulerUpDown, (s.nextOpt).isSome = true) ∧
      ∀ s : EvenBernoulli, (s.next).isSome = true :=
  ⟨fun _ => rfl, fun s => by rw [s.next_eq]; rfl⟩

/-- C9: after the call producing the `n`-th zigzag term (`n ≥ 1`), the
source buffer is empty and the sink buffer holds exactly `n` elements. -/
theorem zigzag_buffer_sizes (n : Nat) (h : 1 ≤ n) :
    (zigzagState n).source = [] ∧ ((zigzagState n).sink).length = n := by
  obtain ⟨m, rfl⟩ : ∃ m, n = m + 1 := ⟨n - 1, by omega⟩
  exact zigzagState_shape m

/-- Witness for C9 at `n = 3`. -/
theorem zigzag_buffer_sizes_witness :
    (1 : Nat) ≤ 3 ∧
      ((zigzagState 3).source = [] ∧ ((zigzagState 3).sink).length = 3) :=
  ⟨by decide, zigzag_buffer_sizes 3 (by decide)⟩

/-- C10: for every `n ≥ 1` the `n`-th non-initial term emitted by
`EvenBernoulli` (the value of `B_{2n}`) is a non-zero rational whose sign
is `(−1)^(n+1)`: positive for odd `n` and negative for even `n`. -/
theorem bernTerm_sign_alternation (n : Nat) (h : 1 ≤ n) :
    bernTerm n ≠ 0 ∧ (Odd n → 0 < bernTerm n) ∧ (Even n → bernTerm n < 0) := by
  obtain ⟨m, rfl⟩ : ∃ m, n = m + 1 := ⟨n - 1, by omega⟩
  have hz : 1 ≤ zigzagTerm (2 * m + 1) := zigzagTerm_pos _
  have hD : (4 ^ (m + 1) - 4 ^ (2 * m + 2) : Int) < 0 := by
    have h4 : (4 : Int) ^ (m + 1) < 4 ^ (2 * m + 2) :=
      pow_lt_pow_right₀ (by norm_num) (by omega)
    exact sub_neg.mpr h4
  have hA : (0 : Int) < (2 * (m : Int) + 2) * zigzagTerm (2 * m + 1) :=
    mul_pos (by positivity) (by omega)
  rcases Nat.even_or_odd (m + 1) with he | ho
  · have h1 : ((-1 : Int)) ^ (m + 1) = 1 := he.neg_one_pow
    have hN : (0 : Int) <
        (-1) ^ (m + 1) * (2 * (m : Int) + 2) * zigzagTerm (2 * m + 1) := by
      rw [h1, one_mul]
      exact hA
    have hlt : bernTerm (m + 1) < 0 := by
      rw [bernTerm_closed]
      exact div_neg_of_pos_of_neg (by exact_mod_cast hN) (by exact_mod_cast hD)
    exact ⟨ne_of_lt hlt, fun hodd => absurd he (Nat.not_even_iff_odd.mpr hodd), fun _ => hlt⟩
  · have h1 : ((-1 : Int)) ^ (m + 1) = -1 := ho.neg_one_pow
    have hN : (-1 : Int) ^ (m + 1) * (2 * (m : Int) + 2) * zigzagTerm (2 * m + 1) < 0 := by
      rw [h1, neg_one_mul, neg_mul]
      exact neg_lt_zero.mpr hA
    have hgt : 0 < bernTerm (m + 1) := by
      rw [bernTerm_closed]
      exact div_pos_of_neg_of_neg (by exact_mod_cast hN) (by exact_mod_cast hD)
    refine ⟨ne_of_gt hgt, fun _ => hgt, fun heven => absurd heven ?_⟩
    exact Nat.not_even_iff_odd.mpr ho

/-- Witness for C10 at `n = 1`. -/
theorem bernTerm_sign_alternation_witness :
    (1 : Nat) ≤ 1 ∧
      (bernTerm 1 ≠ 0 ∧ (Odd 1 → 0 < bernTerm 1) ∧ (Even 1 → bernTerm 1 < 0)) :=
  ⟨le_refl 1, bernTerm_sign_alternation 1 (le_refl 1)⟩

end BernoulliNumbers
